/-
Verification of the command-resolution and output-rendering pipeline of the
terminal-portfolio repository (Angular services: CommandService,
CommandHistoryService, OutputFormatterService, SessionService).

JavaScript strings are embedded as `List Char`; JS `split(' ')`, `trim()`,
`toLowerCase()`, `startsWith` are transliterated below.  Stateful service
members (BehaviorSubject values, private fields) become explicit state
records, and the rxjs pipeline of `executeCommand` becomes an explicit list
of effects applied in order.
-/
import Mathlib

/-- JS strings, embedded as lists of characters. -/
abbrev JStr := List Char

/-- Whitespace characters removed by JS `String.prototype.trim`. -/
def jsIsWhitespace (c : Char) : Bool :=
  c = ' ' || c = '\t' || c = '\n' || c = '\r' || c = '\x0b' || c = '\x0c'

/-- JS `s.trim()`: drop whitespace from both ends. -/
def jsTrim (s : JStr) : JStr :=
  ((s.dropWhile jsIsWhitespace).reverse.dropWhile jsIsWhitespace).reverse

/-- JS `s.toLowerCase()` on the ASCII range (all inputs here are ASCII). -/
def jsToLower (s : JStr) : JStr := s.map Char.toLower

/-- JS `s.toUpperCase()` on the ASCII range. -/
def jsToUpper (s : JStr) : JStr := s.map Char.toUpper

/-- JS `s.split(' ')`: split on every single space, keeping empty pieces
(`"".split(' ')` is `[""]`, `" a".split(' ')` is `["", "a"]`). -/
def splitOnSpace : JStr → List JStr
  | [] => [[]]
  | c :: rest =>
    if c = ' ' then [] :: splitOnSpace rest
    else
      match splitOnSpace rest with
      | t :: ts => (c :: t) :: ts
      | [] => [[c]]

/-- JS `a.startsWith(b)` as a prefix test on character lists. -/
def jsStartsWith (p s : JStr) : Bool :=
  match p, s with
  | [], _ => true
  | _ :: _, [] => false
  | a :: as, b :: bs => a = b && jsStartsWith as bs

/-- JS array access `l[i]` with a (possibly negative) numeric index. -/
def jsIndex (l : List JStr) (i : Int) : Option JStr :=
  if i < 0 then none else l[i.toNat]?

/-- The bullet character used in the asset-generated text. -/
def bulletChar : Char := Char.ofNat 8226

namespace CommandService

/-- Embeds `AVAILABLE_COMMANDS` from `command.models.ts`: the registered command
names, in declaration order. -/
def AVAILABLE_COMMANDS : List JStr :=
  ["help", "summary", "aboutme", "skills", "experience", "education",
   "highlights", "tryme", "download", "clear", "theme"].map String.toList

/-- Embeds `CommandService.isValidCommand`: take the first `split(' ')` token,
lower-case it, and test membership in `AVAILABLE_COMMANDS`. -/
def isValidCommand (command : JStr) : Bool :=
  let baseCommand := jsToLower ((splitOnSpace command).headD [])
  AVAILABLE_COMMANDS.contains baseCommand

/-- Embeds `CommandService.getCommandSuggestions`: empty partial input returns the
whole registry; otherwise filter by case-insensitive prefix. -/
def getCommandSuggestions (partialText : JStr) : List JStr :=
  if partialText = [] then AVAILABLE_COMMANDS
  else
    let lowerPartial := jsToLower partialText
    AVAILABLE_COMMANDS.filter fun cmd => jsStartsWith lowerPartial (jsToLower cmd)

/-- Embeds `CommandExecutionState` from `command.models.ts`. -/
inductive CommandExecutionState
  | idle
  | processing
  | success
  | error
deriving DecidableEq, Repr

/-- The mutable members of `CommandService`: `executionStateSubject`,
`currentCommandSubject`, `commandHistorySubject`. -/
structure ServiceState where
  executionState : CommandExecutionState
  currentCommand : Option JStr
  commandHistory : List JStr
deriving DecidableEq, Repr

/-- Embeds `CommandService.addToHistory`: skip when equal to the last entry, else
push and drop the oldest entry (`shift`) once the length exceeds 50. -/
def addToHistory (command : JStr) (currentHistory : List JStr) : List JStr :=
  let lastCommand := currentHistory.getLast?
  if lastCommand ≠ some command then
    let newHistory := currentHistory ++ [command]
    if newHistory.length > 50 then newHistory.tail else newHistory
  else currentHistory

/-- One side effect performed by `executeCommand` on the service state. -/
inductive Effect
  | setState (s : CommandExecutionState)
  | setCurrent (c : Option JStr)
  | histAppend (c : JStr)
deriving DecidableEq, Repr

def applyEffect (st : ServiceState) : Effect → ServiceState
  | .setState s => { st with executionState := s }
  | .setCurrent c => { st with currentCommand := c }
  | .histAppend c => { st with commandHistory := addToHistory c st.commandHistory }

def applyEffects (st : ServiceState) (es : List Effect) : ServiceState :=
  es.foldl applyEffect st

/-- The observable returned by `executeCommand`: immediate rejection with the
concurrent-execution error, immediate rejection with `INVALID_COMMAND`, or the
resolved output (success, or the `EXECUTION_ERROR` failure of the resolver). -/
inductive ExecResult
  | concurrentError
  | invalidCommandError
  | output (resolverSucceeds : Bool)
deriving DecidableEq, Repr

/-- Embeds `CommandService.isProcessing`. -/
def isProcessing (st : ServiceState) : Bool :=
  st.executionState = CommandExecutionState.processing

/-- Embeds `CommandService.executeCommand`, as a function from the service state and
the raw command text to the returned observable's outcome together with the
ordered list of state effects the call performs.  The first two effects happen
on entry to Processing; the last three are the `finalize` callback, which rxjs
runs when the inner observable completes or errors (the resolver outcome
`resolverSucceeds` does not change them). -/
def executeCommand (st : ServiceState) (command : JStr) (resolverSucceeds : Bool) :
    ExecResult × List Effect :=
  if isProcessing st then (.concurrentError, [])
  else
    let trimmedCommand := jsToLower (jsTrim command)
    if ¬ isValidCommand trimmedCommand then (.invalidCommandError, [])
    else
      (.output resolverSucceeds,
       [.setState .processing, .setCurrent (some trimmedCommand),
        .setState .idle, .setCurrent none, .histAppend trimmedCommand])

/-- The `content` field of a resolver response: a string or a string list. -/
inductive Payload
  | text (s : JStr)
  | list (items : List JStr)
deriving DecidableEq, Repr

/-- A response produced by `generateResponseFromAssets`: `content`, `type`
and the `formatting.color` field. -/
structure GenResponse where
  content : Payload
  type : JStr
  color : JStr
deriving DecidableEq, Repr

/-- JS object property lookup `data[category]` on a parsed JSON object,
modelled as first-match lookup in an association list (JSON object keys are
unique); the lookup is case-sensitive. -/
def jsLookup : List (JStr × List JStr) → JStr → Option (List JStr)
  | [], _ => none
  | (k, v) :: rest, key => if k = key then some v else jsLookup rest key

/-- One line `• skill` of the all-categories skills display. -/
def skillLine (skill : JStr) : JStr := bulletChar :: ' ' :: skill

/-- One block of the all-categories skills display: the upper-cased category
name, a colon, and the bulleted entries joined by newlines. -/
def categoryBlock (cat : JStr) (skills : List JStr) : JStr :=
  jsToUpper cat ++ ":\n".toList ++ List.intercalate ("\n".toList) (skills.map skillLine)

/-- The all-categories text of the `skills` branch. -/
def allSkillsText (data : List (JStr × List JStr)) : JStr :=
  "Technical Skills:\n\n".toList
    ++ List.intercalate ("\n\n".toList) (data.map fun p => categoryBlock p.1 p.2)
    ++ "\n\nUse \x27skills [category]\x27 to view specific categories.".toList

/-- The `case 'skills'` arm of `generateResponseFromAssets`, applied to the
parsed `/assets/skills.json` object `data`: if `args[0]` is truthy (non-empty)
and `data[args[0]]` is defined, return that category's entries as a
`list`-kind response; otherwise show all categories as text. -/
def skillsResponse (data : List (JStr × List JStr)) (args : List JStr) :
    GenResponse :=
  let category := args.headD []
  match category, jsLookup data category with
  | _ :: _, some skills =>
    { content := .list skills, type := "list".toList, color := "blue".toList }
  | _, _ =>
    { content := .text (allSkillsText data), type := "text".toList,
      color := "blue".toList }

/-- The theme listing text of `executeThemeCommand` with no argument, built
from `sessionService.availableThemes` (`name`, `displayName` pairs). -/
def themeListText (themes : List (JStr × JStr)) : JStr :=
  "Available themes:\n\n".toList
    ++ List.intercalate ("\n".toList)
        (themes.map fun t => bulletChar :: ' ' :: (t.1 ++ " - ".toList ++ t.2))
    ++ "\n\nUsage: theme <name>".toList

/-- The invalid-theme message of `executeThemeCommand`. -/
def invalidThemeText (themeName : JStr) : JStr :=
  "❌ Invalid theme: \x27".toList ++ themeName
    ++ "\x27\n\nAvailable themes: dark, light\n\nUsage: theme <name>".toList

/-- Outcome of `executeThemeCommand`: either an immediately returned content
item (no call to the session collaborator), or delegation to
`sessionService.changeTheme` with the validated theme name. -/
inductive ThemeResult
  | content (r : GenResponse)
  | delegate (theme : JStr)
deriving DecidableEq, Repr

/-- Embeds `CommandService.executeThemeCommand`: no argument lists the available
themes; an argument other than `dark`/`light` (after the code's `toLowerCase`)
returns a red error text without touching the session; otherwise the theme
change is delegated to the session collaborator. -/
def executeThemeCommand (availableThemes : List (JStr × JStr))
    (args : List JStr) : ThemeResult :=
  match args with
  | [] =>
    .content { content := .text (themeListText availableThemes),
               type := "text".toList, color := "blue".toList }
  | a :: _ =>
    let themeName := jsToLower a
    if themeName ≠ "dark".toList ∧ themeName ≠ "light".toList then
      .content { content := .text (invalidThemeText themeName),
                 type := "text".toList, color := "red".toList }
    else
      .delegate themeName

/-- The session theme after a theme-command outcome: only delegation to
`changeTheme` replaces it (`SessionService.changeTheme` pushes the new
theme). -/
def applySessionTheme (r : ThemeResult) (currentTheme : JStr) : JStr :=
  match r with
  | .delegate t => t
  | .content _ => currentTheme

end CommandService

namespace CommandHistoryService

/-- The mutable members of `CommandHistoryService`: `historySubject`,
`currentIndex` (a JS number, initially `-1`), `tempCommand`. -/
structure NavState where
  history : List JStr
  currentIndex : Int
  tempCommand : JStr
deriving DecidableEq, Repr

/-- The initial state of the service. -/
def initialState : NavState :=
  { history := [], currentIndex := -1, tempCommand := [] }

/-- Embeds `CommandHistoryService.addCommand`: ignore blank input, apply the
no-consecutive-duplicate push with the 50-entry cap, then reset the
navigation index to one past the last entry and clear the temp input. -/
def addCommand (command : JStr) (st : NavState) : NavState :=
  if jsTrim command = [] then st
  else
    let currentHistory := st.history
    let lastCommand := currentHistory.getLast?
    let newHistory :=
      if lastCommand ≠ some (jsTrim command) then
        let nh := currentHistory ++ [jsTrim command]
        if nh.length > 50 then nh.tail else nh
      else currentHistory
    { history := newHistory, currentIndex := (newHistory.length : Int),
      tempCommand := [] }

/-- Embeds `CommandHistoryService.getPreviousCommand`: returns the produced value
and the updated state. -/
def getPreviousCommand (st : NavState) : Option JStr × NavState :=
  if st.history.length = 0 then (none, st)
  else if st.currentIndex > 0 then
    (jsIndex st.history (st.currentIndex - 1),
     { st with currentIndex := st.currentIndex - 1 })
  else (none, st)

/-- Embeds `CommandHistoryService.getNextCommand`: returns the produced value and
the updated state; at the last entry it jumps back to the live input and
returns the saved `tempCommand`. -/
def getNextCommand (st : NavState) : Option JStr × NavState :=
  if st.history.length = 0 then (none, st)
  else if st.currentIndex < (st.history.length : Int) - 1 then
    (jsIndex st.history (st.currentIndex + 1),
     { st with currentIndex := st.currentIndex + 1 })
  else if st.currentIndex = (st.history.length : Int) - 1 then
    (some st.tempCommand, { st with currentIndex := (st.history.length : Int) })
  else (none, st)

/-- Repeated calls to `getPreviousCommand`, collecting the returned values. -/
def iterPrev : Nat → NavState → List (Option JStr) × NavState
  | 0, st => ([], st)
  | k + 1, st =>
    let p := getPreviousCommand st
    let q := iterPrev k p.2
    (p.1 :: q.1, q.2)

end CommandHistoryService

namespace OutputFormatterService

/-- Lazy search for the closing delimiter `d` in the regex replacements of
`processTextContent`: the content matched by `(.*?)` may not contain a line
terminator (JS `.`), and stops at the first occurrence of `d`.  Returns the
matched content and the remainder after the closing delimiter. -/
def findCloseNoNl (d : JStr) : JStr → Option (JStr × JStr)
  | [] => none
  | c :: rest =>
    if jsStartsWith d (c :: rest) then some ([], (c :: rest).drop d.length)
    else if c = '\n' ∨ c = '\r' then none
    else
      match findCloseNoNl d rest with
      | some (content, rest') => some (c :: content, rest')
      | none => none

/-- One global regex replacement `d(.*?)d → pre $1 post`, scanning left to
right (fuelled by the input length; each step consumes at least one
character). -/
def replaceDelimAux (d pre post : JStr) : Nat → JStr → JStr
  | _, [] => []
  | 0, s => s
  | fuel + 1, c :: rest =>
    if jsStartsWith d (c :: rest) then
      match findCloseNoNl d ((c :: rest).drop d.length) with
      | some (content, rest') =>
        pre ++ content ++ post ++ replaceDelimAux d pre post fuel rest'
      | none => c :: replaceDelimAux d pre post fuel rest
    else c :: replaceDelimAux d pre post fuel rest

/-- JS `s.replace(/d(.*?)d/g, pre + captured + post)` for a literal
delimiter `d`. -/
def replaceDelim (d pre post s : JStr) : JStr :=
  replaceDelimAux d pre post s.length s

/-- The backtick character (the inline-code delimiter). -/
def backtick : Char := Char.ofNat 96

/-- JS `s.replace(/\n/g, '<br>')`. -/
def replaceNewlines (s : JStr) : JStr :=
  s.flatMap fun c => if c = '\n' then ("<br>".toList) else [c]

/-- Embeds `OutputFormatterService.processTextContent`: bold, italic, inline code,
then line breaks, in the order of the source's chained `replace` calls. -/
def processTextContent (content : JStr) : JStr :=
  replaceNewlines
    (replaceDelim [backtick] ("<code>".toList) ("</code>".toList)
      (replaceDelim ['*'] ("<em>".toList) ("</em>".toList)
        (replaceDelim ['*', '*'] ("<strong>".toList) ("</strong>".toList) content)))

/-- The `OutputContent` record returned by `formatText` (the formatting
object is kept opaque). -/
structure OutputContent (F : Type) where
  content : JStr
  type : JStr
  formatting : Option F
deriving Repr

/-- Embeds `OutputFormatterService.formatText`. -/
def formatText (F : Type) (content : JStr) (formatting : Option F) :
    OutputContent F :=
  { content := processTextContent content, type := "text".toList, formatting }

/-- A string containing none of the inline markers handled by
`processTextContent`: no asterisk, no backtick, no newline. -/
def markerFree (s : JStr) : Prop :=
  '*' ∉ s ∧ backtick ∉ s ∧ '\n' ∉ s

instance (s : JStr) : Decidable (markerFree s) := by
  unfold markerFree; infer_instance

end OutputFormatterService

/-! ## Theorems -/

section SplitLemmas

theorem splitOnSpace_no_space {s : JStr} (h : ' ' ∉ s) :
    splitOnSpace s = [s] := by
  induction s with
  | nil => rfl
  | cons c rest ih =>
    have hc : c ≠ ' ' := fun hc => h (hc ▸ List.mem_cons_self c rest)
    have hrest : ' ' ∉ rest := fun hr => h (List.mem_cons_of_mem c hr)
    simp only [splitOnSpace, if_neg hc, ih hrest]

theorem splitOnSpace_append_space {c : JStr} (r : JStr) (h : ' ' ∉ c) :
    splitOnSpace (c ++ ' ' :: r) = c :: splitOnSpace r := by
  induction c with
  | nil => simp [splitOnSpace]
  | cons a as ih =>
    have ha : a ≠ ' ' := fun hc => h (hc ▸ List.mem_cons_self a as)
    have has : ' ' ∉ as := fun hr => h (List.mem_cons_of_mem a hr)
    simp only [List.cons_append, splitOnSpace, if_neg ha, List.append_eq, ih has]

theorem splitOnSpace_headD_no_space {s : JStr} (h : ' ' ∉ s) :
    (splitOnSpace s).headD [] = s := by
  rw [splitOnSpace_no_space h]; rfl

theorem splitOnSpace_headD_append {c : JStr} (r : JStr) (h : ' ' ∉ c) :
    (splitOnSpace (c ++ ' ' :: r)).headD [] = c := by
  rw [splitOnSpace_append_space r h]; rfl

end SplitLemmas

namespace CommandService

theorem isValidCommand_no_space (s : JStr) (h : ' ' ∉ s) :
    isValidCommand s = true ↔ jsToLower s ∈ AVAILABLE_COMMANDS := by
  simp only [isValidCommand, splitOnSpace_headD_no_space h,
    List.contains, List.elem_eq_mem, decide_eq_true_iff]

theorem isValidCommand_with_args (c r : JStr) (h : ' ' ∉ c) :
    isValidCommand (c ++ ' ' :: r) = true ↔ jsToLower c ∈ AVAILABLE_COMMANDS := by
  simp only [isValidCommand, splitOnSpace_headD_append r h,
    List.contains, List.elem_eq_mem, decide_eq_true_iff]

/-- Registered names contain no space and are lower-case fixpoints. -/
theorem available_commands_wf :
    ∀ c ∈ AVAILABLE_COMMANDS, ' ' ∉ c ∧ jsToLower c = c := by decide

theorem addToHistory_length_le (c : JStr) (h : List JStr) (hl : h.length ≤ 50) :
    (addToHistory c h).length ≤ 50 := by
  unfold addToHistory
  dsimp only
  split
  · split
    · rename_i hgt
      simp only [List.length_tail, List.length_append, List.length_cons,
        List.length_nil]
      omega
    · rename_i hle
      simp only [List.length_append, List.length_cons, List.length_nil] at hle ⊢
      omega
  · exact hl

theorem addToHistory_chain' (c : JStr) (h : List JStr)
    (hc : List.Chain' (· ≠ ·) h) : List.Chain' (· ≠ ·) (addToHistory c h) := by
  unfold addToHistory
  dsimp only
  split
  · rename_i hne
    have happ : List.Chain' (· ≠ ·) (h ++ [c]) := by
      rw [List.chain'_append]
      refine ⟨hc, List.chain'_singleton c, ?_⟩
      intro x hx y hy
      simp only [List.head?_cons, Option.mem_def, Option.some.injEq] at hy
      subst hy
      intro hxy
      rw [hxy] at hx
      exact hne (Option.mem_def.mp hx)
    split
    · exact happ.tail
    · exact happ
  · exact hc

end CommandService

namespace CommandService

/-- C1: Single-flight guard: whenever the execution state is Processing, a
call to `executeCommand` fails immediately with the concurrent-execution
error, schedules no work (its effect list is empty), leaves the execution
state, the current command and the history unchanged, and does not alter the
outcome of any effects still pending from the command in flight. -/
theorem claim_C1_single_flight (st : ServiceState) (command : JStr) (b : Bool)
    (h : st.executionState = CommandExecutionState.processing) :
    (executeCommand st command b).1 = ExecResult.concurrentError ∧
    (executeCommand st command b).2 = [] ∧
    applyEffects st (executeCommand st command b).2 = st ∧
    ∀ pending : List Effect,
      applyEffects (applyEffects st (executeCommand st command b).2) pending =
        applyEffects st pending := by
  have hp : isProcessing st = true := by simp [isProcessing, h]
  simp [executeCommand, hp, applyEffects]

theorem claim_C1_witness :
    (executeCommand
        ⟨CommandExecutionState.processing, some ("help".toList), ["help".toList]⟩
        ("summary".toList) true).1 = ExecResult.concurrentError ∧
    applyEffects
        ⟨CommandExecutionState.processing, some ("help".toList), ["help".toList]⟩
        (executeCommand
          ⟨CommandExecutionState.processing, some ("help".toList), ["help".toList]⟩
          ("summary".toList) true).2 =
      ⟨CommandExecutionState.processing, some ("help".toList), ["help".toList]⟩ := by
  have h := claim_C1_single_flight
    ⟨CommandExecutionState.processing, some ("help".toList), ["help".toList]⟩
    ("summary".toList) true rfl
  exact ⟨h.1, h.2.2.1⟩

/-- C2: Finalize guarantee and ordering: a submission that passes validation
and enters Processing performs, for either resolver outcome, exactly the
effect trace entry-to-Processing followed by the three finalize effects in
the fixed order state→Idle, current-command→null, history-append (the append
being `addToHistory`, which applies the no-consecutive-duplicate rule); the
resulting state is Idle with no current command and the normalized command
appended to the history. -/
theorem claim_C2_finalize (st : ServiceState) (command : JStr) (b : Bool)
    (h1 : st.executionState ≠ CommandExecutionState.processing)
    (h2 : isValidCommand (jsToLower (jsTrim command)) = true) :
    (executeCommand st command b).1 = ExecResult.output b ∧
    (executeCommand st command b).2 =
      [Effect.setState CommandExecutionState.processing,
       Effect.setCurrent (some (jsToLower (jsTrim command))),
       Effect.setState CommandExecutionState.idle,
       Effect.setCurrent none,
       Effect.histAppend (jsToLower (jsTrim command))] ∧
    applyEffects st (executeCommand st command b).2 =
      { executionState := CommandExecutionState.idle,
        currentCommand := none,
        commandHistory := addToHistory (jsToLower (jsTrim command)) st.commandHistory } := by
  have hp : isProcessing st = false := by
    simp [isProcessing, h1]
  simp [executeCommand, hp, h2, applyEffects, applyEffect]

theorem claim_C2_witness :
    (executeCommand ⟨CommandExecutionState.idle, none, []⟩ (" Help ".toList) false).1 =
      ExecResult.output false ∧
    applyEffects ⟨CommandExecutionState.idle, none, []⟩
        (executeCommand ⟨CommandExecutionState.idle, none, []⟩ (" Help ".toList) false).2 =
      ⟨CommandExecutionState.idle, none, ["help".toList]⟩ := by
  have h := claim_C2_finalize ⟨CommandExecutionState.idle, none, []⟩
    (" Help ".toList) false (by decide) (by decide)
  refine ⟨h.1, ?_⟩
  rw [h.2.2]
  decide

/-- C3: Validation: every registered command name validates, an argument
suffix after a space never invalidates a valid base command, and a string
validates exactly when the lower-casing of its first space-delimited token is
a registered name (so matching of the first token is case-insensitive, and
any string whose first token matches no registered name is invalid). -/
theorem claim_C3_validation :
    (∀ c ∈ AVAILABLE_COMMANDS,
      isValidCommand c = true ∧
      ∀ r : JStr, isValidCommand (c ++ ' ' :: r) = true) ∧
    (∀ s : JStr,
      isValidCommand s = true ↔
        jsToLower ((splitOnSpace s).headD []) ∈ AVAILABLE_COMMANDS) := by
  constructor
  · intro c hc
    obtain ⟨hns, hlc⟩ := available_commands_wf c hc
    refine ⟨(isValidCommand_no_space c hns).mpr ?_, fun r =>
      (isValidCommand_with_args c r hns).mpr ?_⟩ <;> rw [hlc] <;> exact hc
  · intro s
    simp only [isValidCommand, List.contains, List.elem_eq_mem, decide_eq_true_iff]

theorem claim_C3_witness :
    isValidCommand ("skills".toList) = true ∧
    isValidCommand ("skills".toList ++ ' ' :: "frontend".toList) = true := by
  have h := claim_C3_validation.1 ("skills".toList) (by decide)
  exact ⟨h.1, h.2 ("frontend".toList)⟩

/-- C4: History bound and consecutive-dedup invariant: after any sequence of
appends starting from the empty history, the list never exceeds 50 entries
and never retains two identical consecutive entries; appending a command
equal to the most recent entry is a no-op; and when the cap is exceeded the
oldest (front) entry is evicted. -/
theorem claim_C4_history_invariants :
    (∀ cmds : List JStr,
      (cmds.foldl (fun h c => addToHistory c h) []).length ≤ 50 ∧
      List.Chain' (· ≠ ·) (cmds.foldl (fun h c => addToHistory c h) [])) ∧
    (∀ (h : List JStr) (c : JStr), h.getLast? = some c → addToHistory c h = h) ∧
    (∀ (h : List JStr) (c : JStr), h.getLast? ≠ some c → h.length = 50 →
      addToHistory c h = h.tail ++ [c]) := by
  refine ⟨?_, ?_, ?_⟩
  · have key : ∀ (cmds : List JStr) (acc : List JStr),
        acc.length ≤ 50 → List.Chain' (· ≠ ·) acc →
        (cmds.foldl (fun h c => addToHistory c h) acc).length ≤ 50 ∧
        List.Chain' (· ≠ ·) (cmds.foldl (fun h c => addToHistory c h) acc) := by
      intro cmds
      induction cmds with
      | nil => intro acc h1 h2; exact ⟨h1, h2⟩
      | cons c cs ih =>
        intro acc h1 h2
        exact ih (addToHistory c acc)
          (addToHistory_length_le c acc h1) (addToHistory_chain' c acc h2)
    intro cmds
    exact key cmds [] (by simp) List.chain'_nil
  · intro h c hlast
    simp [addToHistory, hlast]
  · intro h c hne hlen
    cases h with
    | nil => simp at hlen
    | cons x xs =>
      have hgt : ((x :: xs) ++ [c]).length > 50 := by
        simp only [List.length_append, List.length_cons, List.length_nil]
        simp only [List.length_cons] at hlen
        omega
      simp only [addToHistory, if_pos hne, if_pos hgt]
      simp

theorem claim_C4_witness :
    (((["help", "help", "skills"].map String.toList).foldl
        (fun h c => addToHistory c h) []).length ≤ 50 ∧
      List.Chain' (· ≠ ·)
        ((["help", "help", "skills"].map String.toList).foldl
          (fun h c => addToHistory c h) [])) ∧
    addToHistory ("help".toList) ["help".toList] = ["help".toList] :=
  ⟨claim_C4_history_invariants.1 (["help", "help", "skills"].map String.toList),
   claim_C4_history_invariants.2.1 ["help".toList] ("help".toList) (by decide)⟩

end CommandService

namespace CommandService

/-- C6: Skills category filtering: when the first argument of `skills` is a
(case-sensitive) exact key of the skills data, the resolver returns a
`list`-kind response whose payload is exactly that category's entries; when
the argument is omitted or matches no key, it falls through to the
all-categories text display. -/
theorem claim_C6_skills_filter :
    (∀ (data : List (JStr × List JStr)) (cat : JStr) (rest : List JStr)
        (skills : List JStr), cat ≠ [] → jsLookup data cat = some skills →
      skillsResponse data (cat :: rest) =
        { content := Payload.list skills, type := "list".toList,
          color := "blue".toList }) ∧
    (∀ (data : List (JStr × List JStr)) (args : List JStr),
      jsLookup data (args.headD []) = none →
      skillsResponse data args =
        { content := Payload.text (allSkillsText data), type := "text".toList,
          color := "blue".toList }) ∧
    (∀ data : List (JStr × List JStr),
      skillsResponse data [] =
        { content := Payload.text (allSkillsText data), type := "text".toList,
          color := "blue".toList }) := by
  refine ⟨?_, ?_, ?_⟩
  · intro data cat rest skills hcat hlook
    cases cat with
    | nil => exact absurd rfl hcat
    | cons a as =>
      simp only [skillsResponse, List.headD_cons, hlook]
  · intro data args hlook
    cases args with
    | nil =>
      simp only [List.headD_nil] at hlook
      simp only [skillsResponse, List.headD_nil, hlook]
    | cons a as =>
      simp only [List.headD_cons] at hlook
      cases a with
      | nil => simp only [skillsResponse, List.headD_cons, hlook]
      | cons x xs => simp only [skillsResponse, List.headD_cons, hlook]
  · intro data
    simp only [skillsResponse, List.headD_nil, jsLookup]

theorem claim_C6_witness :
    skillsResponse
        [("frontend".toList, ["Angular".toList]), ("backend".toList, ["Node".toList])]
        ["frontend".toList] =
      { content := Payload.list ["Angular".toList], type := "list".toList,
        color := "blue".toList } ∧
    skillsResponse
        [("frontend".toList, ["Angular".toList]), ("backend".toList, ["Node".toList])]
        ["Frontend".toList] =
      { content := Payload.text (allSkillsText
          [("frontend".toList, ["Angular".toList]), ("backend".toList, ["Node".toList])]),
        type := "text".toList, color := "blue".toList } :=
  ⟨claim_C6_skills_filter.1 _ _ _ _ (by decide) (by decide),
   claim_C6_skills_filter.2.1 _ _ (by decide)⟩

/-- C7: Theme argument validation and atomicity: with one argument, the
argument (after the code's lower-casing) is validated against exactly
`{dark, light}`; any value outside that set yields a red error-styled text
content and no delegation to the session collaborator, so the session theme
is unchanged; delegation happens exactly for `dark`/`light`; with no argument
the available theme names are listed. -/
theorem claim_C7_theme :
    (∀ (themes : List (JStr × JStr)) (a : JStr) (rest : List JStr),
      jsToLower a ≠ "dark".toList → jsToLower a ≠ "light".toList →
      executeThemeCommand themes (a :: rest) =
        ThemeResult.content
          { content := Payload.text (invalidThemeText (jsToLower a)),
            type := "text".toList, color := "red".toList } ∧
      ∀ t0 : JStr,
        applySessionTheme (executeThemeCommand themes (a :: rest)) t0 = t0) ∧
    (∀ (themes : List (JStr × JStr)) (a : JStr) (rest : List JStr),
      (∃ t, executeThemeCommand themes (a :: rest) = ThemeResult.delegate t) ↔
        (jsToLower a = "dark".toList ∨ jsToLower a = "light".toList)) ∧
    (∀ themes : List (JStr × JStr),
      executeThemeCommand themes [] =
        ThemeResult.content
          { content := Payload.text (themeListText themes),
            type := "text".toList, color := "blue".toList }) := by
  refine ⟨?_, ?_, ?_⟩
  · intro themes a rest h1 h2
    have he : executeThemeCommand themes (a :: rest) =
        ThemeResult.content
          { content := Payload.text (invalidThemeText (jsToLower a)),
            type := "text".toList, color := "red".toList } := by
      simp only [executeThemeCommand, if_pos (And.intro h1 h2)]
    exact ⟨he, fun t0 => by rw [he]; rfl⟩
  · intro themes a rest
    by_cases h : jsToLower a ≠ "dark".toList ∧ jsToLower a ≠ "light".toList
    · simp only [executeThemeCommand, if_pos h]
      constructor
      · rintro ⟨t, ht⟩; cases ht
      · intro hor; cases hor with
        | inl hd => exact absurd hd h.1
        | inr hl => exact absurd hl h.2
    · simp only [executeThemeCommand, if_neg h]
      rw [not_and_or, not_not, not_not] at h
      exact ⟨fun _ => h, fun _ => ⟨jsToLower a, rfl⟩⟩
  · intro themes
    rfl

theorem claim_C7_witness :
    executeThemeCommand [] ["neon".toList] =
      ThemeResult.content
        { content := Payload.text (invalidThemeText (jsToLower ("neon".toList))),
          type := "text".toList, color := "red".toList } ∧
    applySessionTheme (executeThemeCommand [] ["neon".toList]) ("dark".toList) =
      "dark".toList := by
  have h := claim_C7_theme.1 [] ("neon".toList) [] (by decide) (by decide)
  exact ⟨h.1, h.2 ("dark".toList)⟩

/-- C8: Suggestion engine: the empty partial input returns exactly the full
registered command-name list in declaration order; a non-empty partial input
returns exactly the registered names having it as a case-insensitive prefix;
in particular suggestions for "he" are exactly ["help"], for "xyz" the empty
list, and "HE" still suggests "help". -/
theorem claim_C8_suggestions :
    getCommandSuggestions [] = AVAILABLE_COMMANDS ∧
    (∀ p : JStr, p ≠ [] → ∀ c : JStr,
      (c ∈ getCommandSuggestions p ↔
        c ∈ AVAILABLE_COMMANDS ∧ jsStartsWith (jsToLower p) (jsToLower c) = true)) ∧
    getCommandSuggestions ("he".toList) = ["help".toList] ∧
    getCommandSuggestions ("xyz".toList) = [] ∧
    "help".toList ∈ getCommandSuggestions ("HE".toList) := by
  refine ⟨rfl, ?_, by decide, by decide, by decide⟩
  intro p hp c
  simp only [getCommandSuggestions, if_neg hp, List.mem_filter]

theorem claim_C8_witness :
    "help".toList ∈ getCommandSuggestions ("hel".toList) ↔
      "help".toList ∈ AVAILABLE_COMMANDS ∧
        jsStartsWith (jsToLower ("hel".toList)) (jsToLower ("help".toList)) = true :=
  claim_C8_suggestions.2.1 ("hel".toList) (by decide) ("help".toList)

/-- C10: For every registered command name, prefixing a space makes the
public `isValidCommand` reject it (the first `split(' ')` token is the empty
string), while `executeCommand` still accepts the same raw text because it
trims and lower-cases before validating, so the two entry points disagree on
inputs with leading whitespace. -/
theorem claim_C10_leading_space (b : Bool) :
    ∀ c ∈ AVAILABLE_COMMANDS,
      isValidCommand (' ' :: c) = false ∧
      jsToLower (jsTrim (' ' :: c)) = c ∧
      isValidCommand (jsToLower (jsTrim (' ' :: c))) = true ∧
      (executeCommand ⟨CommandExecutionState.idle, none, []⟩ (' ' :: c) b).1 =
        ExecResult.output b := by
  cases b <;> decide

theorem claim_C10_witness :
    isValidCommand (' ' :: "help".toList) = false ∧
    (executeCommand ⟨CommandExecutionState.idle, none, []⟩
        (' ' :: "help".toList) true).1 = ExecResult.output true := by
  have h := claim_C10_leading_space true ("help".toList) (by decide)
  exact ⟨h.1, h.2.2.2⟩

end CommandService

namespace CommandHistoryService

theorem iterPrev_take (hist : List JStr) (temp : JStr) :
    ∀ k : Nat, k ≤ hist.length →
      iterPrev k ⟨hist, (k : Int), temp⟩ =
        ((hist.take k).reverse.map some, ⟨hist, 0, temp⟩) := by
  intro k
  induction k with
  | zero => intro _; rfl
  | succ n ih =>
    intro hk
    have hn : n < hist.length := by omega
    have hlen : ¬ hist.length = 0 := by omega
    have hstep : getPreviousCommand ⟨hist, ((n + 1 : Nat) : Int), temp⟩ =
        (some hist[n], ⟨hist, (n : Int), temp⟩) := by
      have hc : ((n + 1 : Nat) : Int) - 1 = (n : Int) := by push_cast; ring
      have hpos : ((n + 1 : Nat) : Int) > 0 := by positivity
      simp only [getPreviousCommand, if_neg hlen, if_pos hpos, hc]
      have ht : ((n : Int)).toNat = n := Int.toNat_natCast n
      simp [jsIndex, ht, List.getElem?_eq_getElem hn]
    have key : (List.take (n + 1) hist).reverse.map some =
        some hist[n] :: ((List.take n hist).reverse.map some) := by
      rw [List.take_succ, List.getElem?_eq_getElem hn, Option.toList_some,
        List.reverse_append, List.reverse_singleton, List.singleton_append,
        List.map_cons]
    simp only [iterPrev, hstep, ih (le_of_lt hn), key]

/-- C5: History cursor navigation: from the live-input position (cursor one
past the last entry) repeated `getPreviousCommand` calls return the stored
entries in reverse chronological order ending with the cursor at 0, a
further call returns nothing and the cursor decrements only while positive;
`getNextCommand` below the last entry returns the following entry with an
incremented cursor, from the last entry it returns the saved live/temp input
(not a history entry) while moving the cursor to one-past-last, and at
one-past-last it returns nothing. -/
theorem claim_C5_navigation :
    (∀ (hist : List JStr) (temp : JStr),
      iterPrev hist.length ⟨hist, (hist.length : Int), temp⟩ =
        (hist.reverse.map some, ⟨hist, 0, temp⟩)) ∧
    (∀ (hist : List JStr) (temp : JStr),
      getPreviousCommand ⟨hist, 0, temp⟩ = (none, ⟨hist, 0, temp⟩)) ∧
    (∀ st : NavState, ¬ st.currentIndex > 0 → (getPreviousCommand st).2 = st) ∧
    (∀ (hist : List JStr) (temp : JStr) (i : Nat),
      (i : Int) < (hist.length : Int) - 1 →
      getNextCommand ⟨hist, (i : Int), temp⟩ =
        (hist[i + 1]?, ⟨hist, (i : Int) + 1, temp⟩)) ∧
    (∀ (hist : List JStr) (temp : JStr), hist ≠ [] →
      getNextCommand ⟨hist, (hist.length : Int) - 1, temp⟩ =
        (some temp, ⟨hist, (hist.length : Int), temp⟩)) ∧
    (∀ (hist : List JStr) (temp : JStr), hist ≠ [] →
      getNextCommand ⟨hist, (hist.length : Int), temp⟩ =
        (none, ⟨hist, (hist.length : Int), temp⟩)) := by
  refine ⟨?_, ?_, ?_, ?_, ?_, ?_⟩
  · intro hist temp
    have h := iterPrev_take hist temp hist.length le_rfl
    rwa [List.take_length] at h
  · intro hist temp
    cases hist with
    | nil => rfl
    | cons a as => simp [getPreviousCommand]
  · intro st h
    by_cases h0 : st.history.length = 0
    · simp [getPreviousCommand, h0]
    · simp [getPreviousCommand, h0, h]
  · intro hist temp i hi
    have hlen : ¬ hist.length = 0 := by omega
    have ht : ((i : Int) + 1).toNat = i + 1 := by omega
    simp only [getNextCommand, if_neg hlen, if_pos hi]
    have hnn : ¬ ((i : Int) + 1 < 0) := by omega
    simp [jsIndex, hnn, ht]
  · intro hist temp hne
    have hlen : ¬ hist.length = 0 := by
      simpa using fun h => hne (List.length_eq_zero.mp h)
    have hlt : ¬ ((hist.length : Int) - 1 < (hist.length : Int) - 1) :=
      lt_irrefl _
    simp [getNextCommand, if_neg hlen, if_neg hlt, hne]
  · intro hist temp hne
    have hlen : ¬ hist.length = 0 := by
      simpa using fun h => hne (List.length_eq_zero.mp h)
    simp only [getNextCommand, if_neg hlen, if_neg (by omega : ¬ ((hist.length : Int) < (hist.length : Int) - 1)),
      if_neg (by omega : ¬ ((hist.length : Int) = (hist.length : Int) - 1))]

theorem claim_C5_witness :
    getNextCommand ⟨["ab".toList], 0, "draft".toList⟩ =
      (some ("draft".toList), ⟨["ab".toList], 1, "draft".toList⟩) := by
  have h := claim_C5_navigation.2.2.2.2.1 ["ab".toList] ("draft".toList)
    (by decide)
  simpa using h

end CommandHistoryService

namespace OutputFormatterService

theorem replaceDelimAux_not_mem (x : Char) (xs pre post : JStr) :
    ∀ (fuel : Nat) (s : JStr), x ∉ s →
      replaceDelimAux (x :: xs) pre post fuel s = s := by
  intro fuel
  induction fuel with
  | zero => intro s hx; cases s <;> rfl
  | succ n ih =>
    intro s hx
    cases s with
    | nil => rfl
    | cons c rest =>
      have hxc : x ≠ c := fun h => hx (h ▸ List.mem_cons_self c rest)
      have hpre : jsStartsWith (x :: xs) (c :: rest) = false := by
        simp [jsStartsWith, hxc]
      have hrest : x ∉ rest := fun h => hx (List.mem_cons_of_mem c h)
      simp only [replaceDelimAux, hpre, Bool.false_eq_true, if_false]
      rw [ih rest hrest]

theorem replaceNewlines_not_mem (s : JStr) (h : '\n' ∉ s) :
    replaceNewlines s = s := by
  induction s with
  | nil => rfl
  | cons c rest ih =>
    have hc : ¬ c = '\n' := fun hh => h (hh ▸ List.mem_cons_self c rest)
    have hrest : '\n' ∉ rest := fun hh => h (List.mem_cons_of_mem c hh)
    show ((c :: rest).flatMap fun ch => if ch = '\n' then ("<br>".toList) else [ch]) =
      c :: rest
    rw [List.flatMap_cons, if_neg hc, List.singleton_append]
    exact congrArg (c :: ·) (ih hrest)

/-- C9: Text formatter idempotence on marker-free input: on a string with no
bold/italic asterisks, no inline-code backticks and no newline,
`processTextContent` is the identity, hence it is idempotent there, and
formatting such a payload with `formatText` and re-extracting its display
text yields the original string. -/
theorem claim_C9_formatter (s : JStr) (h : markerFree s) :
    processTextContent s = s ∧
    processTextContent (processTextContent s) = processTextContent s ∧
    ∀ (F : Type) (fmt : Option F), (formatText F s fmt).content = s := by
  obtain ⟨h1, h2, h3⟩ := h
  have e : processTextContent s = s := by
    unfold processTextContent replaceDelim
    rw [replaceDelimAux_not_mem '*' ['*'] _ _ _ s h1,
        replaceDelimAux_not_mem '*' [] _ _ _ s h1,
        replaceDelimAux_not_mem backtick [] _ _ _ s h2,
        replaceNewlines_not_mem s h3]
  exact ⟨e, by rw [e]; exact e, fun F fmt => e⟩

theorem claim_C9_witness :
    processTextContent ("hello world.".toList) = "hello world.".toList :=
  (claim_C9_formatter ("hello world.".toList) (by decide)).1

end OutputFormatterService
